import Mathlib

/-!
Shallow embedding of the `limlistener` Go package: a `net.Listener`
decorator that throttles outbound bandwidth with a global and a
per-connection token-bucket limiter.

Modelling choices:
* `rate.Limiter` objects are shared by pointer in Go; we model the Go
  heap of limiters as a list `Heap`, and pointers as indices (`Nat`).
  A Go `*rlimit.Limiter` field that may be nil is an `Option Nat`.
* Limiter internals (token refill, waiting) are external collaborators;
  the rate and burst fields, which the code reads and writes, are
  modelled directly.  Outcomes of `WaitN` calls and of raw `net.Conn`
  writes are oracle inputs to `Write` and `waitN`.
* Errors are opaque values, modelled as `Nat`.
* A Go panic (failed type assertion) is `Option.none` in the result.
-/

namespace Limlistener

/-- A token-bucket limiter as the code observes it: a mutable rate and a
burst capacity fixed at creation (`rlimit.NewLimiter(rate, burst)`). -/
structure Limiter where
  rate : Int
  burst : Nat
deriving DecidableEq

/-- The Go heap of limiter objects; a `*rlimit.Limiter` is an index. -/
abbrev Heap := List Limiter

/-- `lim.SetLimit(r)`: mutate the rate in place, burst unchanged.
Writing through a dangling index leaves the heap unchanged (unreachable
in states produced by the listener operations). -/
def heapSetRate (h : Heap) (i : Nat) (r : Int) : Heap :=
  match h.get? i with
  | some lim => h.set i { lim with rate := r }
  | none => h

/-- `LimitedConn` (struct fields from the source): connection id, the
wrapped raw `net.Conn` (modelled only by whether it is nil, which is the
case exactly when the raw accept failed), the shared global limiter
pointer, the private per-connection limiter pointer, and the chunk
size `mtu`. -/
structure LimitedConn where
  id : Int
  connNil : Bool
  globalLimiter : Option Nat
  connLimiter : Option Nat
  mtu : Nat
deriving DecidableEq

/-- `LimitedListener` (struct fields from the source) together with the
limiter heap.  `conns` holds the registered connections; since all
mutable per-connection state (the limiters) lives in the heap, holding
the connection values here coincides with Go holding `*LimitedConn`. -/
structure LimitedListener where
  n_conns : Int
  listener : Nat
  globalLimiter : Option Nat
  connLimit : Int
  mtu : Nat
  conns : List LimitedConn
  heap : Heap
deriving DecidableEq

/-- `defaultMTU = 1024`. -/
def defaultMTU : Nat := 1024

/-- `NewWithListener(l)`: zero connections, no limiters (Go zero
values), default chunk size. -/
def NewWithListener (l : Nat) : LimitedListener :=
  { n_conns := 0
    listener := l
    globalLimiter := none
    connLimit := 0
    mtu := defaultMTU
    conns := []
    heap := [] }

/-- `LimitedConn.SetLimit(limit)`: if the per-connection limiter is nil,
create one with this rate and the connection chunk size; then set the
limiter rate in place.  Returns the updated connection and heap. -/
def LimitedConn.SetLimit (lc : LimitedConn) (h : Heap) (limit : Int) :
    LimitedConn × Heap :=
  match lc.connLimiter with
  | none =>
      let idx := h.length
      let h1 := h ++ [{ rate := limit, burst := lc.mtu }]
      ({ lc with connLimiter := some idx }, heapSetRate h1 idx limit)
  | some i => (lc, heapSetRate h i limit)

/-- The `for _, conn := range ll.conns { conn.SetLimit(connLimit) }` loop
of `SetLimits`, threading the heap. -/
def setConnLimits : List LimitedConn → Heap → Int → List LimitedConn × Heap
  | [], h, _ => ([], h)
  | c :: cs, h, limit =>
      let p := c.SetLimit h limit
      let q := setConnLimits cs p.2 limit
      (p.1 :: q.1, q.2)

/-- `LimitedListener.SetLimits(globalLimit, connLimit)`: create the
global limiter (rate `globalLimit`, burst `mtu`) if it does not exist,
set its rate in place, record the per-connection limit, and update every
registered connection's limiter. -/
def LimitedListener.SetLimits (ll : LimitedListener) (globalLimit connLimit : Int) :
    LimitedListener :=
  let p : Option Nat × Heap :=
    match ll.globalLimiter with
    | none => (some ll.heap.length, ll.heap ++ [{ rate := globalLimit, burst := ll.mtu }])
    | some i => (some i, ll.heap)
  let h1 :=
    match p.1 with
    | some i => heapSetRate p.2 i globalLimit
    | none => p.2
  let q := setConnLimits ll.conns h1 connLimit
  { ll with globalLimiter := p.1, heap := q.2, connLimit := connLimit, conns := q.1 }

/-- `LimitedListener.Accept()`.  `rawErr` is the error the raw
`ll.listener.Accept()` returned (`none` on success, in which case the
raw connection is non-nil).  As in the source, the connection id, the
counter increment, the wrapper construction and the registry append all
happen regardless of the error, which is returned alongside the
wrapper. -/
def LimitedListener.Accept (ll : LimitedListener) (rawErr : Option Nat) :
    LimitedListener × LimitedConn × Option Nat :=
  let conn_id := ll.n_conns
  let idx := ll.heap.length
  let h1 := ll.heap ++ [{ rate := ll.connLimit, burst := ll.mtu }]
  let lconn : LimitedConn :=
    { id := conn_id
      connNil := rawErr.isSome
      globalLimiter := ll.globalLimiter
      connLimiter := some idx
      mtu := ll.mtu }
  ({ ll with n_conns := ll.n_conns + 1, heap := h1, conns := ll.conns ++ [lconn] },
   lconn, rawErr)

/-- A value of Go interface type `net.Conn`, with its dynamic type: a
`LimitedConn` value (what `Accept` returns), a `*LimitedConn` pointer,
or a raw transport connection. -/
inductive NetConn where
  | limited (lc : LimitedConn)
  | limitedPtr (lc : LimitedConn)
  | raw (c : Nat)
deriving DecidableEq

/-- The removal part of `CloseConnection`: find the first registry entry
whose id matches, overwrite it with the last entry, drop the last entry
(`ll.conns[i] = ll.conns[len-1]; ll.conns = ll.conns[:len-1]`), and stop. -/
def removeById (conns : List LimitedConn) (i : Int) : List LimitedConn :=
  match conns.findIdx? (fun c => c.id == i) with
  | none => conns
  | some k =>
      match conns.getLast? with
      | none => conns
      | some last => (conns.set k last).dropLast

/-- `LimitedListener.CloseConnection(conn)`: the unchecked type
assertion `conn.(LimitedConn)` panics (`none`) unless the dynamic type
is exactly `LimitedConn`; otherwise close the raw connection (pure
delegation, no listener state), remove the matching registry entry, and
decrement `n_conns` unconditionally. -/
def LimitedListener.CloseConnection (ll : LimitedListener) (conn : NetConn) :
    Option LimitedListener :=
  match conn with
  | NetConn.limited lconn =>
      some { ll with conns := removeById ll.conns lconn.id, n_conns := ll.n_conns - 1 }
  | NetConn.limitedPtr _ => none
  | NetConn.raw _ => none

/-- One listener operation, for reasoning about operation sequences. -/
inductive Op where
  | accept (rawErr : Option Nat)
  | setLimits (g c : Int)
  | closeConn (conn : NetConn)
deriving DecidableEq

/-- Run one operation; `none` models a panic in `CloseConnection`. -/
def LimitedListener.step (ll : LimitedListener) : Op → Option LimitedListener
  | Op.accept e => some (ll.Accept e).1
  | Op.setLimits g c => some (ll.SetLimits g c)
  | Op.closeConn conn => ll.CloseConnection conn

/-- Run a sequence of listener operations. -/
def LimitedListener.run (ll : LimitedListener) : List Op → Option LimitedListener
  | [] => some ll
  | op :: ops =>
      match ll.step op with
      | none => none
      | some ll2 => LimitedListener.run ll2 ops

/-- `LimitedConn.waitN(ctx, n)`: both limiter waits are launched
concurrently and their results land in a channel in either order; the
function scans the channel and returns the first non-nil error, or nil
when both results are nil.  `connRes` and `globalRes` are the outcomes
of `connLimiter.WaitN` and `globalLimiter.WaitN` (oracle inputs, since
the limiters are external); `connFirst` is the nondeterministic channel
arrival order. -/
def LimitedConn.waitN (connRes globalRes : Option Nat) (connFirst : Bool) :
    Option Nat :=
  let arrivals := if connFirst then [connRes, globalRes] else [globalRes, connRes]
  arrivals.findSome? (fun r => r)

/-- The `for len(b) > 0` loop of `LimitedConn.Write`.  `wait k` is the
`waitN` outcome for the k-th chunk, `raw k` the outcome of the raw
`conn.Write` for the k-th chunk (`none`: the full chunk was written).
Returns the list of chunks transmitted through the raw connection, the
byte count `n` and the error returned to the caller.  The outer `none`
is fuel exhaustion (the Go loop diverges when `mtu = 0` and data
remains). -/
def writeLoop (mtu : Nat) (wait raw : Nat → Option Nat) :
    Nat → List Nat → Nat → Nat → List (List Nat) →
    Option (List (List Nat) × Nat × Option Nat)
  | 0, _, _, _, _ => none
  | fuel + 1, b, k, n, tx =>
      if b = [] then some (tx, n, none)
      else
        let s := if mtu < b.length then b.take mtu else b
        let b2 := b.drop s.length
        match wait k with
        | some e => some (tx, 0, some e)
        | none =>
            match raw k with
            | some e => some (tx, 0, some e)
            | none => writeLoop mtu wait raw fuel b2 (k + 1) (n + s.length) (tx ++ [s])

/-- `LimitedConn.Write(b)`: repeatedly pop an mtu-bounded prefix, ask
`waitN` for permission, push the chunk down the raw connection, abort
with `(0, err)` on any failure.  `connRes`, `globalRes`, `order` drive
the k-th chunk's `waitN` call; `raw` the k-th raw write.  The fuel
`b.length + 1` is exact when `mtu > 0`: every iteration consumes at
least one byte. -/
def LimitedConn.Write (mtu : Nat) (connRes globalRes : Nat → Option Nat)
    (order : Nat → Bool) (raw : Nat → Option Nat) (b : List Nat) :
    Option (List (List Nat) × Nat × Option Nat) :=
  writeLoop mtu (fun k => LimitedConn.waitN (connRes k) (globalRes k) (order k))
    raw (b.length + 1) b 0 0 []

/-! ## Helper lemmas -/

/-- Helper: the joint wait returns nil when both limiter waits do. -/
theorem waitN_none (o : Bool) : LimitedConn.waitN none none o = none := by
  cases o <;> rfl

/-- Helper: the chunk one Write-loop iteration pops off the front of the
remaining data (the `s` of the source loop). -/
theorem writeLoop_step (mtu : Nat) (wait raw : Nat → Option Nat)
    (f k n : Nat) (tx : List (List Nat)) (b : List Nat) (hb : b ≠ [])
    (hwk : wait k = none) (hrk : raw k = none) :
    writeLoop mtu wait raw (f + 1) b k n tx =
      writeLoop mtu wait raw f
        (b.drop (if mtu < b.length then b.take mtu else b).length) (k + 1)
        (n + (if mtu < b.length then b.take mtu else b).length)
        (tx ++ [if mtu < b.length then b.take mtu else b]) := by
  simp only [writeLoop, if_neg hb, hwk, hrk]

/-- Helper: an iteration whose joint wait fails returns immediately with
zero bytes, the wait error, and no new transmitted chunk. -/
theorem writeLoop_fail_step (mtu : Nat) (wait raw : Nat → Option Nat)
    (f k n : Nat) (tx : List (List Nat)) (b : List Nat) (e : Nat) (hb : b ≠ [])
    (hwk : wait k = some e) :
    writeLoop mtu wait raw (f + 1) b k n tx = some (tx, 0, some e) := by
  simp only [writeLoop, if_neg hb, hwk]

/-- Helper: whether some connection in the list holds per-connection
limiter pointer j. -/
def refsTo (conns : List LimitedConn) (j : Nat) : Bool :=
  conns.any (fun cn => cn.connLimiter == some j)

/-- Helper: pointwise description of an in-place rate update. -/
theorem heapSetRate_get (h : Heap) (i : Nat) (r : Int) (j : Nat) :
    (heapSetRate h i r).get? j =
      if j = i then (h.get? j).map (fun L => { L with rate := r })
      else h.get? j := by
  cases hgi : h.get? i with
  | none =>
    simp only [heapSetRate, hgi]
    by_cases hij : j = i
    · subst hij; rw [hgi]; simp
    · rw [if_neg hij]
  | some L =>
    simp only [heapSetRate, hgi]
    by_cases hij : j = i
    · subst hij
      rw [if_pos rfl, List.get?_set_eq, hgi]
      rfl
    · rw [if_neg hij]
      exact List.get?_set_ne _ h fun hne => hij hne.symm

/-- Helper: setting the rate twice is setting it once. -/
theorem map_rate_twice (o : Option Limiter) (r : Int) :
    (o.map (fun L => { L with rate := r })).map (fun L => { L with rate := r }) =
      o.map (fun L => { L with rate := r }) := by
  cases o <;> rfl

/-- Helper: unfolding of the per-connection update loop on a connection
that already owns a limiter. -/
theorem setConnLimits_cons_some (cn : LimitedConn) (cs : List LimitedConn)
    (h : Heap) (c : Int) (i : Nat) (hi : cn.connLimiter = some i) :
    setConnLimits (cn :: cs) h c =
      (cn :: (setConnLimits cs (heapSetRate h i c) c).1,
       (setConnLimits cs (heapSetRate h i c) c).2) := by
  simp only [setConnLimits, LimitedConn.SetLimit, hi]

/-- Helper: when every connection already owns a limiter, the update
loop leaves the connection values themselves unchanged. -/
theorem setConnLimits_conns_of_some (c : Int) :
    ∀ (conns : List LimitedConn) (h : Heap),
      (∀ cn ∈ conns, cn.connLimiter.isSome) →
      (setConnLimits conns h c).1 = conns := by
  intro conns
  induction conns with
  | nil => intro h _; rfl
  | cons cn cs ih =>
    intro h hs
    obtain ⟨i, hi⟩ := Option.isSome_iff_exists.mp (hs cn (List.mem_cons_self cn cs))
    rw [setConnLimits_cons_some cn cs h c i hi]
    exact congrArg (cn :: ·) (ih _ fun x hx => hs x (List.mem_cons_of_mem cn hx))

/-- Helper: pointwise description of the heap after the per-connection
update loop, when every connection already owns a limiter: pointers held
by some connection get their rate set to c, all other cells are
untouched. -/
theorem setConnLimits_get_of_some (c : Int) :
    ∀ (conns : List LimitedConn) (h : Heap),
      (∀ cn ∈ conns, cn.connLimiter.isSome) →
      ∀ j, ((setConnLimits conns h c).2).get? j =
        if refsTo conns j then (h.get? j).map (fun L => { L with rate := c })
        else h.get? j := by
  intro conns
  induction conns with
  | nil => intro h _ j; simp [setConnLimits, refsTo]
  | cons cn cs ih =>
    intro h hs j
    obtain ⟨i, hi⟩ := Option.isSome_iff_exists.mp (hs cn (List.mem_cons_self cn cs))
    rw [setConnLimits_cons_some cn cs h c i hi]
    have hrest : ∀ x ∈ cs, x.connLimiter.isSome :=
      fun x hx => hs x (List.mem_cons_of_mem cn hx)
    show ((setConnLimits cs (heapSetRate h i c) c).2).get? j = _
    rw [ih (heapSetRate h i c) hrest j, heapSetRate_get]
    by_cases hij : j = i
    · simp only [if_pos hij]
      have hcons : refsTo (cn :: cs) j = true := by
        subst hij
        simp [refsTo, List.any_cons, hi]
      rw [hcons, if_pos rfl]
      by_cases hr : refsTo cs j
      · rw [if_pos hr, map_rate_twice]
      · rw [if_neg hr]
    · simp only [if_neg hij]
      have hcons : refsTo (cn :: cs) j = refsTo cs j := by
        simp only [refsTo, List.any_cons, hi]
        have hne : (some i == some j) = false := by
          simp only [beq_eq_false_iff_ne]
          exact fun hc => hij (Option.some.inj hc).symm
        rw [hne, Bool.false_or]
      rw [hcons]

/-- Helper: no connection holds per-connection limiter pointer j. -/
theorem refsTo_false (conns : List LimitedConn) (j : Nat)
    (h : ∀ cn ∈ conns, cn.connLimiter ≠ some j) : refsTo conns j = false := by
  simp only [refsTo, List.any_eq_false]
  exact fun cn hcn hbeq => h cn hcn (eq_of_beq hbeq)

/-- Helper: connection cn holds per-connection limiter pointer j. -/
theorem refsTo_true (conns : List LimitedConn) (j : Nat)
    (cn : LimitedConn) (hcn : cn ∈ conns) (h : cn.connLimiter = some j) :
    refsTo conns j = true := by
  simp only [refsTo, List.any_eq_true]
  exact ⟨cn, hcn, by rw [h]; exact beq_self_eq_true _⟩

/-- Helper: the per-connection update loop never touches the
connections' global-limiter pointers. -/
theorem setConnLimits_globalLimiter (c : Int) :
    ∀ (conns : List LimitedConn) (h : Heap),
      ((setConnLimits conns h c).1).map LimitedConn.globalLimiter =
        conns.map LimitedConn.globalLimiter := by
  intro conns
  induction conns with
  | nil => intro h; rfl
  | cons cn cs ih =>
    intro h
    cases hcl : cn.connLimiter with
    | none =>
      simp only [setConnLimits, LimitedConn.SetLimit, hcl, List.map_cons]
      rw [ih]
    | some i =>
      simp only [setConnLimits, LimitedConn.SetLimit, hcl, List.map_cons]
      rw [ih]

/-- Helper: registry removal only removes entries; whatever remains was
registered before. -/
theorem removeById_subset (conns : List LimitedConn) (i : Int) :
    ∀ x ∈ removeById conns i, x ∈ conns := by
  intro x hx
  unfold removeById at hx
  rcases hfind : conns.findIdx? (fun c => c.id == i) with _ | k <;> rw [hfind] at hx
  · exact hx
  · rcases hlast : conns.getLast? with _ | last <;> rw [hlast] at hx
    · exact hx
    · have hx2 := List.dropLast_subset _ hx
      rcases List.mem_or_eq_of_mem_set hx2 with hmem | rfl
      · exact hmem
      · exact List.mem_of_getLast?_eq_some hlast

/-- Helper: the global limiter pointer after SetLimits: the existing one
if there was one, otherwise the freshly allocated cell. -/
theorem SetLimits_globalLimiter (ll : LimitedListener) (g c : Int) :
    (ll.SetLimits g c).globalLimiter =
      some ((ll.globalLimiter).getD ll.heap.length) := by
  cases hgl : ll.globalLimiter <;> simp [LimitedListener.SetLimits, hgl]

/-- Helper: the registry after SetLimits, as connection values with
their per-connection pointers possibly filled in. -/
theorem SetLimits_conns (ll : LimitedListener) (g c : Int) :
    ((ll.SetLimits g c).conns).map LimitedConn.globalLimiter =
      (ll.conns).map LimitedConn.globalLimiter := by
  cases hgl : ll.globalLimiter <;>
    simp only [LimitedListener.SetLimits, hgl] <;>
    exact setConnLimits_globalLimiter c ll.conns _

/-- Helper: one listener operation preserves the invariant that every
registered connection's global-limiter pointer is nil or the listener's
current one. -/
theorem step_preserves_globalRef (ll ll2 : LimitedListener) (op : Op)
    (hstep : ll.step op = some ll2)
    (hinv : ∀ cn ∈ ll.conns,
      cn.globalLimiter = none ∨ cn.globalLimiter = ll.globalLimiter) :
    ∀ cn ∈ ll2.conns,
      cn.globalLimiter = none ∨ cn.globalLimiter = ll2.globalLimiter := by
  cases op with
  | accept e =>
    obtain rfl : (ll.Accept e).1 = ll2 := Option.some.inj hstep
    intro cn hcn
    rcases List.mem_append.mp hcn with hold | hnew
    · exact hinv cn hold
    · obtain rfl := List.mem_singleton.mp hnew
      exact Or.inr rfl
  | setLimits g c =>
    obtain rfl : ll.SetLimits g c = ll2 := Option.some.inj hstep
    intro cn hcn
    have hfield : cn.globalLimiter ∈ (ll.conns).map LimitedConn.globalLimiter := by
      rw [← SetLimits_conns ll g c]
      exact List.mem_map_of_mem _ hcn
    obtain ⟨cn0, hcn0, hf⟩ := List.mem_map.mp hfield
    rcases hinv cn0 hcn0 with h0 | h0
    · exact Or.inl (by rw [← hf, h0])
    · cases hgl : ll.globalLimiter with
      | none => exact Or.inl (by rw [← hf, h0, hgl])
      | some i =>
        refine Or.inr ?_
        rw [← hf, h0, hgl, SetLimits_globalLimiter, hgl]
        rfl
  | closeConn conn =>
    cases conn with
    | limited lc =>
      obtain rfl : _ = ll2 := Option.some.inj hstep
      intro cn hcn
      exact hinv cn (removeById_subset ll.conns lc.id cn hcn)
    | limitedPtr lc => exact Option.noConfusion hstep
    | raw c => exact Option.noConfusion hstep

/-- Helper: the invariant holds along any run. -/
theorem run_preserves_globalRef :
    ∀ (ops : List Op) (ll ll2 : LimitedListener),
      ll.run ops = some ll2 →
      (∀ cn ∈ ll.conns,
        cn.globalLimiter = none ∨ cn.globalLimiter = ll.globalLimiter) →
      ∀ cn ∈ ll2.conns,
        cn.globalLimiter = none ∨ cn.globalLimiter = ll2.globalLimiter := by
  intro ops
  induction ops with
  | nil =>
    intro ll ll2 hrun hinv
    obtain rfl : ll = ll2 := Option.some.inj hrun
    exact hinv
  | cons op ops ih =>
    intro ll ll2 hrun hinv
    simp only [LimitedListener.run] at hrun
    cases hstep : ll.step op with
    | none => rw [hstep] at hrun; exact Option.noConfusion hrun
    | some llmid =>
      rw [hstep] at hrun
      exact ih llmid ll2 hrun (step_preserves_globalRef ll llmid op hstep hinv)

/-- Helper: composing two rate updates keeps only the second. -/
theorem map_rate_comp (o : Option Limiter) (r1 r2 : Int) :
    ((o.map (fun L => { L with rate := r1 })).map
      (fun L => { L with rate := r2 })) =
      o.map (fun L => { L with rate := r2 }) := by
  cases o <;> rfl

/-- Helper: updating the rate to the value it already has is the
identity. -/
theorem map_rate_id (o : Option Limiter) (r : Int)
    (h : ∀ L, o = some L → L.rate = r) :
    o.map (fun L => { L with rate := r }) = o := by
  cases o with
  | none => rfl
  | some L =>
    obtain ⟨r0, b0⟩ := L
    obtain rfl : r0 = r := h _ rfl
    rfl

/-- Helper: elimination form of refsTo = true. -/
theorem refsTo_true_elim (conns : List LimitedConn) (j : Nat)
    (h : refsTo conns j = true) : ∃ cn ∈ conns, cn.connLimiter = some j := by
  simp only [refsTo, List.any_eq_true] at h
  obtain ⟨cn, hcn, hbeq⟩ := h
  exact ⟨cn, hcn, eq_of_beq hbeq⟩

/-- Helper: elimination form of refsTo = false. -/
theorem refsTo_false_elim (conns : List LimitedConn) (j : Nat)
    (h : refsTo conns j = false) : ∀ cn ∈ conns, cn.connLimiter ≠ some j := by
  simp only [refsTo, List.any_eq_false] at h
  exact fun cn hcn hc => h cn hcn (by rw [hc]; exact beq_self_eq_true _)

/-- Helper: after the update loop every connection owns a limiter. -/
theorem setConnLimits_conns_isSome (c : Int) :
    ∀ (conns : List LimitedConn) (h : Heap),
      ∀ cn ∈ (setConnLimits conns h c).1, cn.connLimiter.isSome := by
  intro conns
  induction conns with
  | nil => intro h cn hcn; exact absurd hcn (List.not_mem_nil cn)
  | cons cn0 cs ih =>
    intro h cn hcn
    cases hcl : cn0.connLimiter with
    | none =>
      simp only [setConnLimits, LimitedConn.SetLimit, hcl] at hcn
      rcases List.mem_cons.mp hcn with rfl | hmem
      · rfl
      · exact ih _ cn hmem
    | some i =>
      simp only [setConnLimits, LimitedConn.SetLimit, hcl] at hcn
      rcases List.mem_cons.mp hcn with rfl | hmem
      · rw [hcl]; rfl
      · exact ih _ cn hmem

/-- Helper: a heap cell that already carries rate c keeps carrying
rate c through the update loop (every write in the loop writes c, every
allocation allocates rate c). -/
theorem setConnLimits_preserves_rate (c : Int) (j : Nat) :
    ∀ (conns : List LimitedConn) (h : Heap),
      (∀ L, h.get? j = some L → L.rate = c) →
      ∀ L, ((setConnLimits conns h c).2).get? j = some L → L.rate = c := by
  intro conns
  induction conns with
  | nil => intro h hP; exact hP
  | cons cn0 cs ih =>
    intro h hP
    cases hcl : cn0.connLimiter with
    | some i =>
      simp only [setConnLimits, LimitedConn.SetLimit, hcl]
      refine ih _ (fun L hL => ?_)
      rw [heapSetRate_get] at hL
      by_cases hij : j = i
      · rw [if_pos hij] at hL
        cases hg : h.get? j with
        | none => rw [hg] at hL; exact Option.noConfusion hL
        | some L0 =>
          rw [hg] at hL
          obtain rfl := Option.some.inj hL
          rfl
      · rw [if_neg hij] at hL
        exact hP L hL
    | none =>
      simp only [setConnLimits, LimitedConn.SetLimit, hcl]
      refine ih _ (fun L hL => ?_)
      rw [heapSetRate_get] at hL
      by_cases hij : j = h.length
      · rw [if_pos hij, hij, List.get?_concat_length] at hL
        obtain rfl := Option.some.inj hL
        rfl
      · rw [if_neg hij] at hL
        by_cases hjl : j < h.length
        · rw [List.get?_append hjl] at hL
          exact hP L hL
        · rw [List.get?_eq_none.mpr (by simp; omega)] at hL
          exact Option.noConfusion hL

/-- Helper: after the update loop, the cell behind every connection's
limiter pointer carries rate c. -/
theorem setConnLimits_rate_post (c : Int) :
    ∀ (conns : List LimitedConn) (h : Heap),
      ∀ cn ∈ (setConnLimits conns h c).1, ∀ j, cn.connLimiter = some j →
        ∀ L, ((setConnLimits conns h c).2).get? j = some L → L.rate = c := by
  intro conns
  induction conns with
  | nil => intro h cn hcn; exact absurd hcn (List.not_mem_nil cn)
  | cons cn0 cs ih =>
    intro h cn hcn j hj L hL
    cases hcl : cn0.connLimiter with
    | some i =>
      simp only [setConnLimits, LimitedConn.SetLimit, hcl] at hcn hL
      rcases List.mem_cons.mp hcn with rfl | hmem
      · rw [hcl] at hj
        obtain rfl := Option.some.inj hj
        refine setConnLimits_preserves_rate c _ cs _ (fun L2 hL2 => ?_) L hL
        rw [heapSetRate_get, if_pos rfl] at hL2
        cases hg : h.get? i with
        | none => rw [hg] at hL2; exact Option.noConfusion hL2
        | some L0 =>
          rw [hg] at hL2
          obtain rfl := Option.some.inj hL2
          rfl
      · exact ih _ cn hmem j hj L hL
    | none =>
      simp only [setConnLimits, LimitedConn.SetLimit, hcl] at hcn hL
      rcases List.mem_cons.mp hcn with rfl | hmem
      · simp only at hj
        obtain rfl := Option.some.inj hj
        refine setConnLimits_preserves_rate c _ cs _ (fun L2 hL2 => ?_) L hL
        rw [heapSetRate_get, if_pos rfl, List.get?_concat_length] at hL2
        obtain rfl := Option.some.inj hL2
        rfl
      · exact ih _ cn hmem j hj L hL

/-- Helper: a heap cell not pointed at by any connection surviving the
update loop is untouched by it. -/
theorem setConnLimits_get_notref (c : Int) (j : Nat) :
    ∀ (conns : List LimitedConn) (h : Heap),
      (∀ cn ∈ (setConnLimits conns h c).1, cn.connLimiter ≠ some j) →
      ((setConnLimits conns h c).2).get? j = h.get? j := by
  intro conns
  induction conns with
  | nil => intro h _; rfl
  | cons cn0 cs ih =>
    intro h hno
    cases hcl : cn0.connLimiter with
    | some i =>
      simp only [setConnLimits, LimitedConn.SetLimit, hcl] at hno ⊢
      have hij : j ≠ i := fun hji => by
        refine hno cn0 (List.mem_cons_self _ _) ?_
        rw [hcl, hji]
      rw [ih _ (fun cn hcn => hno cn (List.mem_cons_of_mem cn0 hcn)),
        heapSetRate_get, if_neg hij]
    | none =>
      simp only [setConnLimits, LimitedConn.SetLimit, hcl] at hno ⊢
      have hij : j ≠ h.length := fun hji => by
        refine hno { cn0 with connLimiter := some h.length }
          (List.mem_cons_self _ _) ?_
        simp only
        rw [hji]
      rw [ih _ (fun cn hcn => hno cn (List.mem_cons_of_mem _ hcn)),
        heapSetRate_get, if_neg hij]
      by_cases hjl : j < h.length
      · exact List.get?_append hjl
      · rw [List.get?_eq_none.mpr (by simp; omega),
          List.get?_eq_none.mpr (by omega)]

/-- Helper: listener states with equal fields are equal. -/
theorem LimitedListener.eq_of_fields (a b : LimitedListener)
    (h1 : a.n_conns = b.n_conns) (h2 : a.listener = b.listener)
    (h3 : a.globalLimiter = b.globalLimiter) (h4 : a.connLimit = b.connLimit)
    (h5 : a.mtu = b.mtu) (h6 : a.conns = b.conns) (h7 : a.heap = b.heap) :
    a = b := by
  cases a; cases b
  simp only at h1 h2 h3 h4 h5 h6 h7
  subst h1; subst h2; subst h3; subst h4; subst h5; subst h6; subst h7
  rfl

/-- Helper: running the per-connection update loop a second time, after
an in-place global rate write, reproduces the heap the first run left:
every cell a connection points at already carries rate c, and the global
cell, when not aliased by a connection, already carries rate g. -/
theorem setConnLimits_again_heap (g c : Int) (conns0 : List LimitedConn)
    (hmid : Heap) (gi : Nat)
    (hg : ∀ L, hmid.get? gi = some L → L.rate = g) :
    (setConnLimits (setConnLimits conns0 hmid c).1
        (heapSetRate (setConnLimits conns0 hmid c).2 gi g) c).2 =
      (setConnLimits conns0 hmid c).2 := by
  apply List.ext_get?
  intro j
  have hsome1 := setConnLimits_conns_isSome c conns0 hmid
  rw [setConnLimits_get_of_some c _ _ hsome1 j, heapSetRate_get]
  cases hr : refsTo (setConnLimits conns0 hmid c).1 j with
  | true =>
    rw [if_pos rfl]
    obtain ⟨cn, hcn, hcnj⟩ := refsTo_true_elim _ j hr
    have hrc : ∀ L, ((setConnLimits conns0 hmid c).2).get? j = some L →
        L.rate = c := setConnLimits_rate_post c conns0 hmid cn hcn j hcnj
    by_cases hij : j = gi
    · rw [if_pos hij, map_rate_comp, map_rate_id _ _ hrc]
    · rw [if_neg hij, map_rate_id _ _ hrc]
  | false =>
    rw [if_neg Bool.false_ne_true]
    by_cases hij : j = gi
    · rw [if_pos hij]
      have hnoref := refsTo_false_elim _ j hr
      rw [setConnLimits_get_notref c j conns0 hmid hnoref]
      subst hij
      exact map_rate_id _ _ hg
    · rw [if_neg hij]

/-! ## Theorems -/

/-- C1: on raw-accept failure the code does not leave the listener state
unchanged: evaluated at a listener with no connections and a failing raw
accept (error 7), `Accept` propagates the error but still increments the
connection counter, allocates identity 0, and appends a registry entry
wrapping a nil raw connection — contradicting the claim that listener
state is unchanged on accept failure. -/
theorem accept_failure_still_registers :
    (((NewWithListener 0).SetLimits 5 3).Accept (some 7)).2.2 = some 7 ∧
    ((NewWithListener 0).SetLimits 5 3).n_conns = 0 ∧
    (((NewWithListener 0).SetLimits 5 3).Accept (some 7)).1.n_conns = 1 ∧
    ((NewWithListener 0).SetLimits 5 3).conns = [] ∧
    (((NewWithListener 0).SetLimits 5 3).Accept (some 7)).1.conns.length = 1 ∧
    (∀ cn ∈ (((NewWithListener 0).SetLimits 5 3).Accept (some 7)).1.conns,
      cn.id = 0 ∧ cn.connNil = true) := by
  decide

/-- C2: the connection counter does decrease and identities are reused.
On the operation sequence Accept, Accept, CloseConnection(first conn),
Accept, the counter goes 2 → 1 at the close, and the final live registry
holds two entries both with identity 1 — contradicting both the
never-decreases and the distinct-identities parts of the claim. -/
theorem counter_decreases_and_identity_reused :
    ((NewWithListener 0).run [Op.accept none, Op.accept none]).map
      LimitedListener.n_conns = some 2 ∧
    ((NewWithListener 0).run [Op.accept none, Op.accept none,
        Op.closeConn (NetConn.limited ((NewWithListener 0).Accept none).2.1)]).map
      LimitedListener.n_conns = some 1 ∧
    ((NewWithListener 0).run [Op.accept none, Op.accept none,
        Op.closeConn (NetConn.limited ((NewWithListener 0).Accept none).2.1),
        Op.accept none]).map
      (fun l => l.conns.map LimitedConn.id) = some [1, 1] := by
  decide

/-- C3 counterexample: a connection accepted before the first SetLimits
call copies the nil global-limiter pointer; after SetLimits creates the
global limiter, the registered connection still holds nil, which differs
from the listener's current global limiter — refuting the claim for
connections accepted before the first SetLimits call. -/
theorem global_limiter_stale_before_first_setLimits :
    let ll2 := (((NewWithListener 0).Accept none).1).SetLimits 5 5
    ll2.globalLimiter = some 1 ∧
      ll2.conns.map LimitedConn.globalLimiter = [none] ∧
      (∃ cn ∈ ll2.conns, cn.globalLimiter ≠ ll2.globalLimiter) := by
  decide

/-- C3 (amended): SetLimits never replaces the global limiter object
once it exists (the pointer is stable), and after any sequence of
listener operations every connection in the live registry holds a
global-limiter reference that is either nil (connections accepted before
the first SetLimits call, which never receive the object) or equal to
the listener's current global limiter object. -/
theorem global_limiter_reference_invariant :
    (∀ (ll : LimitedListener) (g c : Int) (i : Nat),
      ll.globalLimiter = some i → (ll.SetLimits g c).globalLimiter = some i) ∧
    (∀ (ops : List Op) (l : Nat) (ll2 : LimitedListener),
      (NewWithListener l).run ops = some ll2 →
      ∀ cn ∈ ll2.conns,
        cn.globalLimiter = none ∨ cn.globalLimiter = ll2.globalLimiter) := by
  constructor
  · intro ll g c i hi
    rw [SetLimits_globalLimiter, hi]
    rfl
  · intro ops l ll2 hrun
    exact run_preserves_globalRef ops (NewWithListener l) ll2 hrun
      (fun cn hcn => absurd hcn (List.not_mem_nil cn))

/-- C3 (amended) witness: on the run Accept, SetLimits, Accept the first
connection keeps a nil reference while the second holds the listener's
global limiter. -/
theorem global_limiter_reference_invariant_witness :
    (((NewWithListener 0).SetLimits 5 3).SetLimits 7 2).globalLimiter = some 0 ∧
    ∀ cn ∈ (((NewWithListener 0).Accept none).1.SetLimits 5 3).conns,
      cn.globalLimiter = none ∨
        cn.globalLimiter =
          (((NewWithListener 0).Accept none).1.SetLimits 5 3).globalLimiter :=
  ⟨global_limiter_reference_invariant.1 ((NewWithListener 0).SetLimits 5 3) 7 2 0
    (by decide),
   by
    have hrun : (NewWithListener 0).run [Op.accept none, Op.setLimits 5 3] =
        some (((NewWithListener 0).Accept none).1.SetLimits 5 3) := by decide
    exact global_limiter_reference_invariant.2 [Op.accept none, Op.setLimits 5 3]
      0 _ hrun⟩

/-- C8: the joint wait returns nil exactly when both limiter waits
return nil; whichever single limiter fails, its error is the one
returned, independent of channel arrival order; any returned failure is
one of the two branch failures; and a chunk whose joint wait fails is
never transmitted — one Write-loop iteration with a failing joint wait
returns immediately with the transmitted-chunk list unchanged. -/
theorem waitN_joint (cr gr : Option Nat) (o : Bool) :
    (LimitedConn.waitN cr gr o = none ↔ cr = none ∧ gr = none) ∧
    (∀ e, cr = some e → gr = none → LimitedConn.waitN cr gr o = some e) ∧
    (∀ e, gr = some e → cr = none → LimitedConn.waitN cr gr o = some e) ∧
    (∀ e, LimitedConn.waitN cr gr o = some e → cr = some e ∨ gr = some e) ∧
    (∀ (mtu : Nat) (connRes globalRes : Nat → Option Nat) (order : Nat → Bool)
        (raw : Nat → Option Nat) (fuel k n : Nat) (b : List Nat)
        (tx : List (List Nat)) (e : Nat), b ≠ [] →
      LimitedConn.waitN (connRes k) (globalRes k) (order k) = some e →
      writeLoop mtu (fun j => LimitedConn.waitN (connRes j) (globalRes j) (order j))
          raw (fuel + 1) b k n tx = some (tx, 0, some e)) := by
  refine ⟨?_, ?_, ?_, ?_, ?_⟩
  · cases cr <;> cases gr <;> cases o <;> simp [LimitedConn.waitN]
  · intro e h1 h2; subst h1; subst h2; cases o <;> simp [LimitedConn.waitN]
  · intro e h1 h2; subst h1; subst h2; cases o <;> simp [LimitedConn.waitN]
  · intro e h
    cases cr <;> cases gr <;> cases o <;>
      simp [LimitedConn.waitN] at h <;> simp [h]
  · intro mtu connRes globalRes order raw fuel k n b tx e hb hfail
    exact writeLoop_fail_step mtu _ raw fuel k n tx b e hb hfail

/-- C8 witness: with the per-connection wait failing with error 5 and
the global wait succeeding, the joint wait returns error 5. -/
theorem waitN_joint_witness : LimitedConn.waitN (some 5) none true = some 5 :=
  (waitN_joint (some 5) none true).2.1 5 rfl rfl

/-- Helper: a Write-loop run in which every joint wait and every raw
write succeeds transmits a chunking of the remaining data: consecutive
nonempty chunks of length at most `mtu`, all but the last of length
exactly `mtu`, and returns the accumulated count plus the remaining
length with a nil error. -/
theorem writeLoop_success (mtu : Nat) (wait raw : Nat → Option Nat)
    (hm : 0 < mtu) (hw : ∀ i, wait i = none) (hr : ∀ i, raw i = none) :
    ∀ fuel b k n tx, b.length < fuel →
      ∃ tx2, writeLoop mtu wait raw fuel b k n tx =
          some (tx ++ tx2, n + b.length, none) ∧
        tx2.flatten = b ∧ (∀ c ∈ tx2, 0 < c.length ∧ c.length ≤ mtu) ∧
        (∀ c ∈ tx2.dropLast, c.length = mtu) := by
  intro fuel
  induction fuel with
  | zero => intro b k n tx h; exact absurd h (Nat.not_lt_zero _)
  | succ f ih =>
    intro b k n tx hfuel
    by_cases hb : b = []
    · subst hb
      exact ⟨[], by simp [writeLoop], by simp, by simp, by simp⟩
    · have hblen : 0 < b.length := List.length_pos.mpr hb
      set s := if mtu < b.length then b.take mtu else b with hs
      have hslen : 0 < s.length ∧ s.length ≤ mtu ∧ s.length ≤ b.length := by
        rw [hs]; split
        · simp only [List.length_take]; omega
        · omega
      have hsb : s ++ b.drop s.length = b := by
        rw [hs]; split
        · rw [List.length_take]
          have hmin : min mtu b.length = mtu := by omega
          rw [hmin, List.take_append_drop]
        · simp
      have hfullchunk : s.length < b.length → s.length = mtu := by
        rw [hs]; split
        · intro _; simp only [List.length_take]; omega
        · intro hcontra; omega
      obtain ⟨tx2, heq, hflat, hsz, hfull⟩ :=
        ih (b.drop s.length) (k + 1) (n + s.length) (tx ++ [s])
          (by rw [List.length_drop]; omega)
      refine ⟨s :: tx2, ?_, ?_, ?_, ?_⟩
      · rw [writeLoop_step mtu wait raw f k n tx b hb (hw k) (hr k), ← hs, heq]
        have hcount : n + s.length + (b.drop s.length).length = n + b.length := by
          rw [List.length_drop]; omega
        rw [hcount, List.append_assoc, List.singleton_append]
      · simp only [List.flatten_cons]
        rw [hflat, hsb]
      · intro c hc
        rcases List.mem_cons.mp hc with rfl | hc2
        · exact ⟨hslen.1, hslen.2.1⟩
        · exact hsz c hc2
      · intro c hc
        cases tx2 with
        | nil => simp at hc
        | cons x xs =>
          rw [List.dropLast_cons₂] at hc
          rcases List.mem_cons.mp hc with rfl | hc2
          · -- another chunk follows, so this one was a full take
            have hne : b.drop s.length ≠ [] := by
              intro habs
              rw [habs, List.flatten_cons] at hflat
              have hx0 : x = [] := (List.append_eq_nil.mp hflat).1
              have hx : 0 < x.length := (hsz x (List.mem_cons_self x xs)).1
              rw [hx0] at hx
              simp at hx
            have hlt : s.length < b.length := by
              by_contra hge
              exact hne (List.drop_eq_nil_of_le (by omega))
            exact hfullchunk hlt
          · exact hfull c hc2

/-- C5: when every joint wait and every raw write succeeds, Write
transmits the data as consecutive chunks covering it exactly once — the
concatenation of the transmitted chunks equals the input, every chunk is
nonempty with length at most the chunk size, every chunk but the last
has length exactly the chunk size — and returns the full input length
with a nil error. -/
theorem Write_success (mtu : Nat) (connRes globalRes : Nat → Option Nat)
    (order : Nat → Bool) (raw : Nat → Option Nat) (b : List Nat)
    (hm : 0 < mtu)
    (hc : ∀ i, connRes i = none) (hg : ∀ i, globalRes i = none)
    (hr : ∀ i, raw i = none) :
    ∃ tx, LimitedConn.Write mtu connRes globalRes order raw b =
        some (tx, b.length, none) ∧
      tx.flatten = b ∧ (∀ c ∈ tx, 0 < c.length ∧ c.length ≤ mtu) ∧
      (∀ c ∈ tx.dropLast, c.length = mtu) := by
  have hw : ∀ i, LimitedConn.waitN (connRes i) (globalRes i) (order i) = none := by
    intro i; rw [hc i, hg i]; exact waitN_none (order i)
  obtain ⟨tx2, heq, hjoin, hsz, hfull⟩ :=
    writeLoop_success mtu _ raw hm hw hr (b.length + 1) b 0 0 []
      (Nat.lt_succ_self _)
  exact ⟨tx2, by simpa [LimitedConn.Write] using heq, hjoin, hsz, hfull⟩

/-- C5 witness: writing five bytes with chunk size two and all waits and
raw writes succeeding. -/
theorem Write_success_witness :
    ∃ tx, LimitedConn.Write 2 (fun _ => none) (fun _ => none) (fun _ => true)
        (fun _ => none) [1, 2, 3, 4, 5] = some (tx, [1, 2, 3, 4, 5].length, none) ∧
      tx.flatten = [1, 2, 3, 4, 5] ∧ (∀ c ∈ tx, 0 < c.length ∧ c.length ≤ 2) ∧
      (∀ c ∈ tx.dropLast, c.length = 2) :=
  Write_success 2 (fun _ => none) (fun _ => none) (fun _ => true) (fun _ => none)
    [1, 2, 3, 4, 5] (by decide) (fun _ => rfl) (fun _ => rfl) (fun _ => rfl)

/-- Helper: a Write-loop run whose first j joint waits and raw writes
succeed and whose joint wait for chunk j fails transmits exactly the
first j full chunks and returns zero with the wait error. -/
theorem writeLoop_wait_fail (mtu : Nat) (wait raw : Nat → Option Nat) (e : Nat)
    (hm : 0 < mtu) :
    ∀ j fuel b k n tx,
      (∀ i, i < j → wait (k + i) = none ∧ raw (k + i) = none) →
      wait (k + j) = some e →
      j * mtu < b.length →
      j < fuel →
      ∃ tx2, writeLoop mtu wait raw fuel b k n tx = some (tx ++ tx2, 0, some e) ∧
        tx2.length = j ∧ tx2.flatten = b.take (j * mtu) := by
  intro j
  induction j with
  | zero =>
    intro fuel b k n tx hpre hfail hlt hfuel
    obtain ⟨f, rfl⟩ : ∃ f, fuel = f + 1 := ⟨fuel - 1, by omega⟩
    have hb : b ≠ [] := by
      intro habs; rw [habs] at hlt; simp at hlt
    rw [Nat.add_zero] at hfail
    refine ⟨[], ?_, rfl, by simp⟩
    rw [writeLoop_fail_step mtu wait raw f k n tx b e hb hfail]
    simp
  | succ j ih =>
    intro fuel b k n tx hpre hfail hlt hfuel
    obtain ⟨f, rfl⟩ : ∃ f, fuel = f + 1 := ⟨fuel - 1, by omega⟩
    have hsucc : (j + 1) * mtu = j * mtu + mtu := Nat.succ_mul j mtu
    have hmlt : mtu < b.length := by omega
    have hb : b ≠ [] := by
      intro habs; rw [habs] at hlt; simp at hlt
    have hw0 := (hpre 0 (Nat.succ_pos j)).1
    have hr0 := (hpre 0 (Nat.succ_pos j)).2
    rw [Nat.add_zero] at hw0 hr0
    have hslen : (b.take mtu).length = mtu := by
      simp only [List.length_take]; omega
    have hstep := writeLoop_step mtu wait raw f k n tx b hb hw0 hr0
    rw [if_pos hmlt, hslen] at hstep
    obtain ⟨tx2, heq, hlen2, hflat⟩ :=
      ih f (b.drop mtu) (k + 1) (n + mtu) (tx ++ [b.take mtu])
        (fun i hi => by
          have hki := hpre (i + 1) (by omega)
          rw [show k + (i + 1) = k + 1 + i from by omega] at hki
          exact hki)
        (by rw [show k + 1 + j = k + (j + 1) from by omega]; exact hfail)
        (by rw [List.length_drop]; omega)
        (by omega)
    refine ⟨b.take mtu :: tx2, ?_, by simp [hlen2], ?_⟩
    · rw [hstep, heq, List.append_assoc, List.singleton_append]
    · rw [List.flatten_cons, hflat]
      rw [show (j + 1) * mtu = mtu + j * mtu from by omega, List.take_add]

/-- C4: when the joint limiter wait for chunk k0 fails after the first
k0 chunks went through, Write returns a byte count of zero together with
the wait error; the transmitted chunks are exactly the first k0 chunks
of the data (already-transmitted chunks are not retransmitted and no
further chunk is sent in that call). -/
theorem Write_wait_fail (mtu k0 e : Nat) (connRes globalRes : Nat → Option Nat)
    (order : Nat → Bool) (raw : Nat → Option Nat) (b : List Nat)
    (hm : 0 < mtu)
    (hpre : ∀ i, i < k0 → connRes i = none ∧ globalRes i = none ∧ raw i = none)
    (hfail : LimitedConn.waitN (connRes k0) (globalRes k0) (order k0) = some e)
    (hlt : k0 * mtu < b.length) :
    ∃ tx, LimitedConn.Write mtu connRes globalRes order raw b =
        some (tx, 0, some e) ∧
      tx.length = k0 ∧ tx.flatten = b.take (k0 * mtu) := by
  have h1 : k0 * 1 ≤ k0 * mtu := Nat.mul_le_mul_left k0 hm
  obtain ⟨tx2, heq, hl, hf⟩ :=
    writeLoop_wait_fail mtu
      (fun j => LimitedConn.waitN (connRes j) (globalRes j) (order j)) raw e hm
      k0 (b.length + 1) b 0 0 []
      (fun i hi => by
        obtain ⟨hc, hg, hr⟩ := hpre i hi
        simp only [Nat.zero_add]
        rw [hc, hg]
        exact ⟨waitN_none _, hr⟩)
      (by simpa using hfail)
      hlt (by omega)
  exact ⟨tx2, by simpa [LimitedConn.Write] using heq, hl, hf⟩

/-- C4 witness: writing five bytes with chunk size two, chunk 0
succeeding everywhere and the joint wait for chunk 1 failing with
error 9: the call returns zero bytes with error 9 having transmitted
exactly the first chunk. -/
theorem Write_wait_fail_witness :
    ∃ tx, LimitedConn.Write 2 (fun k => if k = 1 then some 9 else none)
        (fun _ => none) (fun _ => true) (fun _ => none) [1, 2, 3, 4, 5] =
        some (tx, 0, some 9) ∧
      tx.length = 1 ∧ tx.flatten = [1, 2, 3, 4, 5].take (1 * 2) :=
  Write_wait_fail 2 1 9 (fun k => if k = 1 then some 9 else none)
    (fun _ => none) (fun _ => true) (fun _ => none) [1, 2, 3, 4, 5]
    (by decide)
    (fun i hi => by
      have hi0 : i = 0 := by omega
      subst hi0
      exact ⟨by decide, rfl, rfl⟩)
    (by decide) (by decide)

/-- C6: a Write larger than one chunk that is aborted by a joint-wait
failure has transmitted a byte count that is an exact multiple of the
chunk size and strictly less than the requested length: no partial chunk
is ever transmitted. -/
theorem Write_cancel_chunk_multiple (mtu k0 e : Nat)
    (connRes globalRes : Nat → Option Nat)
    (order : Nat → Bool) (raw : Nat → Option Nat) (b : List Nat)
    (hm : 0 < mtu) (hbig : mtu < b.length)
    (hpre : ∀ i, i < k0 → connRes i = none ∧ globalRes i = none ∧ raw i = none)
    (hfail : LimitedConn.waitN (connRes k0) (globalRes k0) (order k0) = some e)
    (hlt : k0 * mtu < b.length) :
    ∃ tx, LimitedConn.Write mtu connRes globalRes order raw b =
        some (tx, 0, some e) ∧
      (∃ m, tx.flatten.length = m * mtu) ∧ tx.flatten.length < b.length := by
  have h1 : k0 * 1 ≤ k0 * mtu := Nat.mul_le_mul_left k0 hm
  obtain ⟨tx2, heq, hl, hf⟩ :=
    writeLoop_wait_fail mtu
      (fun j => LimitedConn.waitN (connRes j) (globalRes j) (order j)) raw e hm
      k0 (b.length + 1) b 0 0 []
      (fun i hi => by
        obtain ⟨hc, hg, hr⟩ := hpre i hi
        simp only [Nat.zero_add]
        rw [hc, hg]
        exact ⟨waitN_none _, hr⟩)
      (by simpa using hfail)
      hlt (by omega)
  refine ⟨tx2, by simpa [LimitedConn.Write] using heq, ⟨k0, ?_⟩, ?_⟩
  · rw [hf, List.length_take]; omega
  · rw [hf, List.length_take]; omega

/-- C6 witness: a five-byte write with chunk size two canceled at chunk
1 transmits two bytes: a multiple of the chunk size, less than five. -/
theorem Write_cancel_chunk_multiple_witness :
    ∃ tx, LimitedConn.Write 2 (fun k => if k = 1 then some 9 else none)
        (fun _ => none) (fun _ => true) (fun _ => none) [1, 2, 3, 4, 5] =
        some (tx, 0, some 9) ∧
      (∃ m, tx.flatten.length = m * 2) ∧ tx.flatten.length < [1, 2, 3, 4, 5].length :=
  Write_cancel_chunk_multiple 2 1 9 (fun k => if k = 1 then some 9 else none)
    (fun _ => none) (fun _ => true) (fun _ => none) [1, 2, 3, 4, 5]
    (by decide) (by decide)
    (fun i hi => by
      have hi0 : i = 0 := by omega
      subst hi0
      exact ⟨by decide, rfl, rfl⟩)
    (by decide) (by decide)

/-- C7: SetLimits(g, c): when no global limiter exists it creates one
with rate g and burst equal to the chunk size; otherwise it keeps the
existing limiter object and sets its rate to g in place (burst
unchanged, as the map form shows); it records c as the listener's
per-connection limit; it sets the rate of the private limiter of every
registered connection to c in place; it is a total function (never
fails) and modifies nothing else — counter, raw listener, chunk size and
registry are untouched, and so is every heap cell other than the global
limiter and the registered per-connection limiters.  The hypothesis is
the well-formedness every reachable listener state has: each registered
connection owns a valid per-connection limiter pointer distinct from the
global limiter pointer. -/
theorem SetLimits_spec (ll : LimitedListener) (g c : Int)
    (hconn : ∀ cn ∈ ll.conns, ∃ j, cn.connLimiter = some j ∧
      j < ll.heap.length ∧ ll.globalLimiter ≠ some j) :
    (ll.globalLimiter = none →
       (ll.SetLimits g c).globalLimiter = some ll.heap.length ∧
       ((ll.SetLimits g c).heap).get? ll.heap.length =
         some { rate := g, burst := ll.mtu }) ∧
    (∀ i, ll.globalLimiter = some i →
       (ll.SetLimits g c).globalLimiter = some i ∧
       ((ll.SetLimits g c).heap).get? i =
         (ll.heap.get? i).map (fun L => { L with rate := g })) ∧
    (ll.SetLimits g c).connLimit = c ∧
    (ll.SetLimits g c).conns = ll.conns ∧
    (∀ cn ∈ ll.conns, ∀ j, cn.connLimiter = some j →
       ((ll.SetLimits g c).heap).get? j =
         (ll.heap.get? j).map (fun L => { L with rate := c })) ∧
    (ll.SetLimits g c).n_conns = ll.n_conns ∧
    (ll.SetLimits g c).mtu = ll.mtu ∧
    (ll.SetLimits g c).listener = ll.listener ∧
    (∀ j, ll.globalLimiter ≠ some j → j ≠ ll.heap.length →
       (∀ cn ∈ ll.conns, cn.connLimiter ≠ some j) →
       ((ll.SetLimits g c).heap).get? j = ll.heap.get? j) := by
  have hsome : ∀ cn ∈ ll.conns, cn.connLimiter.isSome := by
    intro cn hcn
    obtain ⟨j, hj, _, _⟩ := hconn cn hcn
    rw [hj]; rfl
  cases hgl : ll.globalLimiter with
  | none =>
    have hdef : ll.SetLimits g c =
        { ll with
          globalLimiter := some ll.heap.length
          heap := (setConnLimits ll.conns
            (heapSetRate (ll.heap ++ [{ rate := g, burst := ll.mtu }])
              ll.heap.length g) c).2
          connLimit := c
          conns := (setConnLimits ll.conns
            (heapSetRate (ll.heap ++ [{ rate := g, burst := ll.mtu }])
              ll.heap.length g) c).1 } := by
      simp only [LimitedListener.SetLimits, hgl]
    rw [hdef]
    refine ⟨fun _ => ⟨rfl, ?_⟩, ?_, rfl, ?_, ?_, rfl, rfl, rfl, ?_⟩
    · -- the freshly created global limiter cell
      rw [setConnLimits_get_of_some c ll.conns _ hsome,
        refsTo_false ll.conns ll.heap.length (fun cn hcn hc => by
          obtain ⟨j, hj, hjlt, _⟩ := hconn cn hcn
          rw [hj] at hc
          exact absurd (Option.some.inj hc) (by omega)),
        if_neg (by simp), heapSetRate_get, if_pos rfl,
        List.get?_concat_length]
      rfl
    · intro i hi
      exact Option.noConfusion hi
    · exact setConnLimits_conns_of_some c ll.conns _ hsome
    · intro cn hcn j hj
      obtain ⟨j2, hj2, hjlt, _⟩ := hconn cn hcn
      rw [hj] at hj2
      obtain rfl : j = j2 := Option.some.inj hj2
      rw [setConnLimits_get_of_some c ll.conns _ hsome,
        refsTo_true ll.conns j cn hcn hj, if_pos rfl,
        heapSetRate_get, if_neg (by omega), List.get?_append hjlt]
    · intro j _ hjlen hnoref
      rw [setConnLimits_get_of_some c ll.conns _ hsome,
        refsTo_false ll.conns j hnoref, if_neg (by simp),
        heapSetRate_get, if_neg hjlen]
      by_cases hjl : j < ll.heap.length
      · exact List.get?_append hjl
      · rw [List.get?_eq_none.mpr (by simp; omega),
          List.get?_eq_none.mpr (by omega)]
  | some i =>
    have hdef : ll.SetLimits g c =
        { ll with
          globalLimiter := some i
          heap := (setConnLimits ll.conns (heapSetRate ll.heap i g) c).2
          connLimit := c
          conns := (setConnLimits ll.conns (heapSetRate ll.heap i g) c).1 } := by
      simp only [LimitedListener.SetLimits, hgl]
    rw [hdef]
    have hnotrefi : refsTo ll.conns i = false := by
      refine refsTo_false ll.conns i (fun cn hcn hc => ?_)
      obtain ⟨j, hj, _, hne⟩ := hconn cn hcn
      rw [hj] at hc
      obtain rfl : i = j := (Option.some.inj hc).symm
      exact hne (by rw [hgl])
    refine ⟨fun hnone => ?_, fun i2 hi2 => ?_, rfl, ?_, ?_, rfl, rfl, rfl, ?_⟩
    · exact Option.noConfusion hnone
    · obtain rfl : i = i2 := Option.some.inj hi2
      refine ⟨rfl, ?_⟩
      rw [setConnLimits_get_of_some c ll.conns _ hsome, hnotrefi,
        if_neg (by simp), heapSetRate_get, if_pos rfl]
    · exact setConnLimits_conns_of_some c ll.conns _ hsome
    · intro cn hcn j hj
      obtain ⟨j2, hj2, _, hne⟩ := hconn cn hcn
      rw [hj] at hj2
      obtain rfl : j = j2 := Option.some.inj hj2
      have hij : j ≠ i := fun hji => hne (by rw [hgl, hji])
      rw [setConnLimits_get_of_some c ll.conns _ hsome,
        refsTo_true ll.conns j cn hcn hj, if_pos rfl,
        heapSetRate_get, if_neg hij]
    · intro j hgne _ hnoref
      have hij : j ≠ i := fun hji => hgne (by rw [hji])
      rw [setConnLimits_get_of_some c ll.conns _ hsome,
        refsTo_false ll.conns j hnoref, if_neg (by simp),
        heapSetRate_get, if_neg hij]

/-- C7 witness: a listener with one registered connection (limiter
pointer 1, distinct from global pointer 0): SetLimits 7 2 keeps the
global object, sets its rate to 7, records 2, and sets the connection
limiter rate to 2. -/
theorem SetLimits_spec_witness :
    let ll := (((NewWithListener 0).SetLimits 5 3).Accept none).1
    (ll.globalLimiter = none →
       (ll.SetLimits 7 2).globalLimiter = some ll.heap.length ∧
       ((ll.SetLimits 7 2).heap).get? ll.heap.length =
         some { rate := 7, burst := ll.mtu }) ∧
    (∀ i, ll.globalLimiter = some i →
       (ll.SetLimits 7 2).globalLimiter = some i ∧
       ((ll.SetLimits 7 2).heap).get? i =
         (ll.heap.get? i).map (fun L => { L with rate := 7 })) ∧
    (ll.SetLimits 7 2).connLimit = 2 ∧
    (ll.SetLimits 7 2).conns = ll.conns ∧
    (∀ cn ∈ ll.conns, ∀ j, cn.connLimiter = some j →
       ((ll.SetLimits 7 2).heap).get? j =
         (ll.heap.get? j).map (fun L => { L with rate := 2 })) ∧
    (ll.SetLimits 7 2).n_conns = ll.n_conns ∧
    (ll.SetLimits 7 2).mtu = ll.mtu ∧
    (ll.SetLimits 7 2).listener = ll.listener ∧
    (∀ j, ll.globalLimiter ≠ some j → j ≠ ll.heap.length →
       (∀ cn ∈ ll.conns, cn.connLimiter ≠ some j) →
       ((ll.SetLimits 7 2).heap).get? j = ll.heap.get? j) :=
  SetLimits_spec (((NewWithListener 0).SetLimits 5 3).Accept none).1 7 2
    (by
      intro cn hcn
      have hlist : (((NewWithListener 0).SetLimits 5 3).Accept none).1.conns =
          [{ id := 0, connNil := false, globalLimiter := some 0,
             connLimiter := some 1, mtu := 1024 }] := by decide
      rw [hlist] at hcn
      obtain rfl := List.mem_singleton.mp hcn
      exact ⟨1, rfl, by decide, by decide⟩)

/-- Helper: a second SetLimits with the same arguments is the identity,
given an explicit description of the first call's result and the fact
that the intermediate heap's global cell already carries rate g. -/
theorem setLimits_again (ll : LimitedListener) (g c : Int) (gi : Nat) (hmid : Heap)
    (hll : ll.SetLimits g c = { ll with
        globalLimiter := some gi
        heap := (setConnLimits ll.conns hmid c).2
        connLimit := c
        conns := (setConnLimits ll.conns hmid c).1 })
    (hg : ∀ L, hmid.get? gi = some L → L.rate = g) :
    (ll.SetLimits g c).SetLimits g c = ll.SetLimits g c := by
  rw [hll]
  have hdef2 : ({ ll with
        globalLimiter := some gi
        heap := (setConnLimits ll.conns hmid c).2
        connLimit := c
        conns := (setConnLimits ll.conns hmid c).1 } : LimitedListener).SetLimits g c =
      { ll with
        globalLimiter := some gi
        heap := (setConnLimits (setConnLimits ll.conns hmid c).1
          (heapSetRate (setConnLimits ll.conns hmid c).2 gi g) c).2
        connLimit := c
        conns := (setConnLimits (setConnLimits ll.conns hmid c).1
          (heapSetRate (setConnLimits ll.conns hmid c).2 gi g) c).1 } := by
    simp only [LimitedListener.SetLimits]
  rw [hdef2]
  exact LimitedListener.eq_of_fields _ _ rfl rfl rfl rfl rfl
    (setConnLimits_conns_of_some c _ _ (setConnLimits_conns_isSome c ll.conns hmid))
    (setConnLimits_again_heap g c ll.conns hmid gi hg)

/-- C9: SetLimits is idempotent: for every listener state and every pair
of rates (g, c), calling SetLimits g c twice yields exactly the state of
calling it once — in particular the global limiter's rate and burst, the
recorded per-connection limit and every registered connection's limiter
rate coincide, since the whole state does. -/
theorem SetLimits_idempotent (ll : LimitedListener) (g c : Int) :
    (ll.SetLimits g c).SetLimits g c = ll.SetLimits g c := by
  cases hgl : ll.globalLimiter with
  | none =>
    refine setLimits_again ll g c ll.heap.length
      (heapSetRate (ll.heap ++ [{ rate := g, burst := ll.mtu }]) ll.heap.length g)
      ?_ ?_
    · simp only [LimitedListener.SetLimits, hgl]
    · intro L hL
      rw [heapSetRate_get, if_pos rfl, List.get?_concat_length] at hL
      obtain rfl := Option.some.inj hL
      rfl
  | some i =>
    refine setLimits_again ll g c i (heapSetRate ll.heap i g) ?_ ?_
    · simp only [LimitedListener.SetLimits, hgl]
    · intro L hL
      rw [heapSetRate_get, if_pos rfl] at hL
      cases hgi : ll.heap.get? i with
      | none => rw [hgi] at hL; exact Option.noConfusion hL
      | some L0 =>
        rw [hgi] at hL
        obtain rfl := Option.some.inj hL
        rfl

/-- C10: CloseConnection performs an unchecked downcast of its argument
to the `LimitedConn` value type: it panics on a raw transport connection
and on a `*LimitedConn` pointer, and when the argument is a
`LimitedConn` whose identity matches no registry entry it still
decrements the connection counter while leaving the registry unchanged. -/
theorem closeConnection_unchecked_downcast (ll : LimitedListener) :
    (∀ c, ll.CloseConnection (NetConn.raw c) = none) ∧
    (∀ lc, ll.CloseConnection (NetConn.limitedPtr lc) = none) ∧
    (∀ lc, (∀ cn ∈ ll.conns, cn.id ≠ lc.id) →
      ∃ ll2, ll.CloseConnection (NetConn.limited lc) = some ll2 ∧
        ll2.conns = ll.conns ∧ ll2.n_conns = ll.n_conns - 1) := by
  refine ⟨fun c => rfl, fun lc => rfl, fun lc hno => ?_⟩
  refine ⟨_, rfl, ?_, rfl⟩
  show removeById ll.conns lc.id = ll.conns
  unfold removeById
  have hfind : ll.conns.findIdx? (fun c => c.id == lc.id) = none := by
    rw [List.findIdx?_eq_none_iff]
    intro x hx
    simpa using hno x hx
  rw [hfind]

/-- C10 witness: closing an unregistered `LimitedConn` value on a fresh
listener leaves the (empty) registry unchanged and decrements the
counter to −1. -/
theorem closeConnection_unchecked_downcast_witness :
    ∃ ll2, (NewWithListener 0).CloseConnection
        (NetConn.limited
          { id := 0, connNil := false, globalLimiter := none,
            connLimiter := none, mtu := 0 }) = some ll2 ∧
      ll2.conns = (NewWithListener 0).conns ∧
      ll2.n_conns = (NewWithListener 0).n_conns - 1 :=
  (closeConnection_unchecked_downcast (NewWithListener 0)).2.2 _
    (by intro cn h; cases h)

end Limlistener
